import Mathlib

/-!
# Verification of the vendored `tldextract` module

A shallow embedding of `src/lib/bindings/python/pyfaup/tldextract.py`:
the public-suffix matcher `_PublicSuffixListTLDExtractor.extract`, the
`rpartition`-based three-way split in `TLDExtract._extract`, and the
suffix-set lifecycle in `TLDExtract._get_tld_extractor`.

Strings are modelled as lists of characters (`Str`), so that splitting on
`'.'` and joining with `'.'` are ordinary structural recursions.  The
source mixes `bytes` and `str` freely (a leftover of a 2-to-3 port); the
model identifies the two, i.e. it embeds the string algorithm the code
expresses.  The suffix set — a Python `frozenset` — is modelled as a list
of strings: the algorithm only ever tests membership and emptiness, and
both are invariant under deduplication.
-/

namespace Faup

/-- Strings as lists of characters. -/
abbrev Str := List Char

/-- Coerce a Lean string literal into the model's string type. -/
def str (s : String) : Str := s.data

/-- Prepend a character to the first part of a split (the list is never
empty in practice, since `splitDots` always returns at least one part). -/
def consHead (c : Char) : List Str → List Str
  | [] => [[c]]
  | l :: ls => (c :: l) :: ls

/-- `netloc.split('.')`: split on every dot; `""` yields `[""]`, and a
dot at either end or a doubled dot yields empty labels, exactly as in
Python. -/
def splitDots : Str → List Str
  | [] => [[]]
  | c :: cs => if c = '.' then [] :: splitDots cs else consHead c (splitDots cs)

/-- `'.'.join(parts)`: interpose a dot between consecutive parts. -/
def joinDots : List Str → Str
  | [] => []
  | [l] => l
  | l :: l2 :: ls => l ++ '.' :: joinDots (l2 :: ls)

/-- Drop the empty strings from a list of parts (the spec's "omitting
empty parts" when rejoining an extraction result). -/
def keepNonEmpty : List Str → List Str
  | [] => []
  | p :: ps => if p = [] then keepNonEmpty ps else p :: keepNonEmpty ps

/-- Rejoin the non-empty fields of a `(subdomain, domain, tld)` triple
with `.` separators — the reconstruction the spec's invariant talks
about. -/
def rejoinTriple (t : Str × Str × Str) : Str :=
  joinDots (keepNonEmpty [t.1, t.2.1, t.2.2])

/-- `registered_domain.rpartition('.')`, projected to the pair the code
uses: `(subdomain, domain)` = (everything before the last dot, everything
after it; `("", s)` when `s` has no dot, `("", "")` when `s` is empty). -/
def rpartitionDot (s : Str) : Str × Str :=
  let parts := splitDots s
  (joinDots parts.dropLast, parts.getLastD [])

/-- The suffix-rule matcher object: `_PublicSuffixListTLDExtractor`
(tldextract.py, lines 198–214).  Its single field is the suffix set. -/
structure PublicSuffixListTLDExtractor where
  tlds : List Str

/-- The body of the `for i in range(len(spl))` loop of
`_PublicSuffixListTLDExtractor.extract` (lines 204–212), with
`pre = spl[:i]` accumulated and `rest = spl[i:]` remaining.  `none` means
the loop fell through to the final `return netloc, b''`. -/
def extractLoop (tlds : List Str) : List Str → List Str → Option (Str × Str)
  | _, [] => none
  | pre, l :: rest =>
    let maybe_tld := joinDots (l :: rest)
    if '!' :: maybe_tld ∈ tlds then
      some (joinDots (pre ++ [l]), joinDots rest)
    else if '*' :: '.' :: joinDots rest ∈ tlds ∨ maybe_tld ∈ tlds then
      some (joinDots pre, maybe_tld)
    else
      extractLoop tlds (pre ++ [l]) rest

/-- `_PublicSuffixListTLDExtractor.extract(netloc)` (lines 202–214):
try each dot-delimited tail of the host, longest first; an exception rule
puts the boundary one label further right; if nothing matches, the whole
input comes back with an empty suffix. -/
def PublicSuffixListTLDExtractor.extract
    (self : PublicSuffixListTLDExtractor) (netloc : Str) : Str × Str :=
  match extractLoop self.tlds [] (splitDots netloc) with
  | some r => r
  | none => (netloc, [])

/-- "Some rule fires at split index `i`": the membership tests of loop
iteration `i` of `extract`, over the label list `spl`. -/
abbrev matchesAt (tlds : List Str) (spl : List Str) (i : Nat) : Prop :=
  ('!' :: joinDots (spl.drop i)) ∈ tlds ∨
  ('*' :: '.' :: joinDots (spl.drop (i + 1))) ∈ tlds ∨
  joinDots (spl.drop i) ∈ tlds

/-- The pure content of `TLDExtract._extract` (lines 131–136): run the
matcher, then split its registered-domain part at the last dot.  Returns
`(subdomain, domain, tld)`. -/
def extractTriple (tlds : List Str) (host : Str) : Str × Str × Str :=
  let rt := PublicSuffixListTLDExtractor.extract ⟨tlds⟩ host
  let sd := rpartitionDot rt.1
  (sd.1, sd.2, rt.2)

/-- `ExtractResult` (lines 57–95): the named-tuple result type
`(subdomain, domain, tld)`. -/
structure ExtractResult where
  subdomain : Str
  domain : Str
  tld : Str

/-- Outcome of `open(cached_file)` + `pickle.load` in
`_get_tld_extractor`: a successful load, a missing file (`ENOENT`), some
other `IOError`, or any other exception.  The last three are all treated
as a miss by the code (the latter two with an error log). -/
inductive CacheRead where
  | found (tlds : List Str)
  | notFound
  | ioError
  | corrupt

/-- The ambient world `_get_tld_extractor` reads: the cache-file read
outcome, the rule list `_PublicSuffixListSource()` would produce (empty
when the fetch fails — `_fetch_page` returns `''` on `URLError` and the
regex then finds nothing), and the bundled `.tld_set_snapshot` content
(assumed readable: the code lets an unreadable snapshot propagate, which
the spec calls a fatal deployment error). -/
structure Env where
  cache : CacheRead
  fetched : List Str
  snapshot : List Str

/-- `TLDExtract` (lines 97–182): configuration, the memoized extractor
(`_extractor`, `None` until first resolution), and the three mutable
result attributes `_extract` writes. -/
structure TLDExtract where
  fetch : Bool
  cache_file : Str
  _extractor : Option PublicSuffixListTLDExtractor
  tld : Str
  domain : Str
  subdomain : Str

/-- The default cache path `os.path.join(os.path.dirname(__file__),
'.tld_set')`; the directory part is environment-dependent and nothing in
the model depends on this value. -/
def default_cache_file : Str := str ".tld_set"

/-- `TLDExtract.__init__(fetch=True, cache_file='')` (lines 98–117):
`cache_file or <default>`, extractor not yet resolved, and the three
result attributes initialized to `''`. -/
def TLDExtract.init (fetch : Bool) (cache_file : Str) : TLDExtract :=
  { fetch := fetch
  , cache_file := if cache_file = [] then default_cache_file else cache_file
  , _extractor := none
  , tld := []
  , domain := []
  , subdomain := [] }

/-- `TLDExtract._get_tld_extractor` (lines 140–182) as a state
transformer over `Env`: return the memoized extractor if present;
otherwise try the cache (any failed read falls through), then the fetch
(only if `self.fetch`; `frozenset()` otherwise), then — if that set is
empty/falsy — the bundled snapshot.  Every branch memoizes what it
returns.  The cache write-back of a freshly fetched set (lines 175–179)
only touches the filesystem and is outside the model. -/
def TLDExtract._get_tld_extractor (self : TLDExtract) (env : Env) :
    PublicSuffixListTLDExtractor × TLDExtract :=
  match self._extractor with
  | some e => (e, self)
  | none =>
    match env.cache with
    | CacheRead.found ts => (⟨ts⟩, { self with _extractor := some ⟨ts⟩ })
    | _ =>
      let tlds : List Str := if self.fetch then env.fetched else []
      if tlds = [] then
        (⟨env.snapshot⟩, { self with _extractor := some ⟨env.snapshot⟩ })
      else
        (⟨tlds⟩, { self with _extractor := some ⟨tlds⟩ })

/-- `TLDExtract._extract(host)` (lines 131–136): resolve the extractor,
run it on the host, `rpartition` the registered-domain part on its last
dot, and store the three parts in the instance attributes.  The method
has no `return` statement. -/
def TLDExtract._extract (self : TLDExtract) (env : Env) (host : Str) :
    TLDExtract :=
  let er := self._get_tld_extractor env
  let rt := er.1.extract host
  let sd := rpartitionDot rt.1
  { er.2 with tld := rt.2, subdomain := sd.1, domain := sd.2 }

/-- `TLDExtract.__call__(host)` (lines 118–130): `return
self._extract(host)`.  Since `_extract` falls off its end without a
`return`, the call's value is `None`, modelled as `none`; the state
component carries the attribute mutations. -/
def TLDExtract.call (self : TLDExtract) (env : Env) (host : Str) :
    Option ExtractResult × TLDExtract :=
  (none, self._extract env host)

/-! ## Split/join algebra -/

theorem consHead_ne_nil (c : Char) (ls : List Str) : consHead c ls ≠ [] := by
  cases ls <;> simp [consHead]

theorem splitDots_ne_nil (s : Str) : splitDots s ≠ [] := by
  cases s with
  | nil => simp [splitDots]
  | cons c cs =>
    simp only [splitDots]
    by_cases hc : c = '.'
    · simp [hc]
    · rw [if_neg hc]
      exact consHead_ne_nil c (splitDots cs)

theorem join_splitDots (s : Str) : joinDots (splitDots s) = s := by
  induction s with
  | nil => rfl
  | cons c cs ih =>
    cases h : splitDots cs with
    | nil => exact absurd h (splitDots_ne_nil cs)
    | cons l ls =>
      rw [h] at ih
      by_cases hc : c = '.'
      · subst hc
        simp only [splitDots, if_pos rfl, h]
        simp only [joinDots, List.nil_append]
        rw [ih]
      · simp only [splitDots, if_neg hc, h, consHead]
        cases ls with
        | nil =>
          simp only [joinDots] at ih ⊢
          rw [ih]
        | cons l2 ls2 =>
          simp only [joinDots] at ih ⊢
          rw [List.cons_append, ih]

theorem splitDots_no_dot (s : Str) : ∀ l ∈ splitDots s, '.' ∉ l := by
  induction s with
  | nil =>
    intro l hl
    simp [splitDots] at hl
    simp [hl]
  | cons c cs ih =>
    intro l hl
    cases h : splitDots cs with
    | nil => exact absurd h (splitDots_ne_nil cs)
    | cons m ms =>
      rw [h] at ih
      by_cases hc : c = '.'
      · subst hc
        simp only [splitDots, if_pos rfl, h] at hl
        rcases List.mem_cons.mp hl with h1 | h2
        · simp [h1]
        · exact ih l h2
      · simp only [splitDots, if_neg hc, h, consHead] at hl
        rcases List.mem_cons.mp hl with h1 | h2
        · subst h1
          intro hd
          rcases List.mem_cons.mp hd with h3 | h4
          · exact hc h3.symm
          · exact ih m (List.mem_cons_self m ms) h4
        · exact ih l (List.mem_cons_of_mem m h2)

theorem splitDots_of_no_dot {x : Str} (h : '.' ∉ x) : splitDots x = [x] := by
  induction x with
  | nil => rfl
  | cons c cs ih =>
    have hc : ¬ c = '.' := fun e => h (e ▸ List.mem_cons_self c cs)
    have hcs : '.' ∉ cs := fun hm => h (List.mem_cons_of_mem c hm)
    simp [splitDots, if_neg hc, ih hcs, consHead]

theorem splitDots_append_dot {x : Str} (t : Str) (h : '.' ∉ x) :
    splitDots (x ++ '.' :: t) = x :: splitDots t := by
  induction x with
  | nil => simp [splitDots]
  | cons c cs ih =>
    have hc : ¬ c = '.' := fun e => h (e ▸ List.mem_cons_self c cs)
    have hcs : '.' ∉ cs := fun hm => h (List.mem_cons_of_mem c hm)
    simp [List.cons_append, splitDots, if_neg hc, ih hcs, consHead]

theorem splitDots_joinDots : ∀ (ls : List Str), ls ≠ [] →
    (∀ l ∈ ls, '.' ∉ l) → splitDots (joinDots ls) = ls
  | [], h, _ => absurd rfl h
  | [x], _, hd => by
    simp only [joinDots]
    exact splitDots_of_no_dot (hd x (List.mem_cons_self x []))
  | x :: y :: r, _, hd => by
    simp only [joinDots]
    rw [splitDots_append_dot _ (hd x (List.mem_cons_self x _)),
      splitDots_joinDots (y :: r) (by simp)
        (fun l hl => hd l (List.mem_cons_of_mem x hl))]

theorem joinDots_ne_nil : ∀ (ls : List Str), ls ≠ [] →
    (∀ l ∈ ls, l ≠ []) → joinDots ls ≠ []
  | [], h, _ => absurd rfl h
  | [x], _, hne => by simpa [joinDots] using hne x (List.mem_cons_self x [])
  | _ :: _ :: _, _, _ => by simp [joinDots]

theorem joinDots_append : ∀ (us vs : List Str), us ≠ [] → vs ≠ [] →
    joinDots (us ++ vs) = joinDots us ++ '.' :: joinDots vs
  | [], _, hu, _ => absurd rfl hu
  | [u], vs, _, hv => by
    cases vs with
    | nil => exact absurd rfl hv
    | cons v vs' => simp [joinDots]
  | u :: u2 :: us', vs, _, hv => by
    have ih := joinDots_append (u2 :: us') vs (by simp) hv
    cases vs with
    | nil => exact absurd rfl hv
    | cons v vs' =>
      simp only [List.cons_append] at ih ⊢
      simp only [joinDots]
      rw [ih]
      simp [List.cons_append, List.append_assoc]

theorem getLastD_concat (us : List Str) (x d : Str) :
    (us ++ [x]).getLastD d = x := by
  rw [List.getLastD_eq_getLast?, List.getLast?_concat]
  rfl

/-! ## Characterizing the matcher loop -/

theorem extractLoop_eq_none (tlds : List Str) :
    ∀ (rest pre : List Str),
      (∀ k, k < rest.length → ¬ matchesAt tlds rest k) →
      extractLoop tlds pre rest = none
  | [], _, _ => rfl
  | l :: rest, pre, h => by
    have h0 := h 0 (by simp)
    simp only [matchesAt, List.drop_zero, List.drop_succ_cons] at h0
    push_neg at h0
    obtain ⟨he, hw, hp⟩ := h0
    simp only [extractLoop]
    rw [if_neg he, if_neg (by tauto)]
    exact extractLoop_eq_none tlds rest (pre ++ [l]) (fun k hk => by
      have hs := h (k + 1) (by simpa using Nat.succ_lt_succ hk)
      simpa only [matchesAt, List.drop_succ_cons] using hs)

theorem extractLoop_shape (tlds : List Str) :
    ∀ (rest pre : List Str) (r : Str × Str),
      extractLoop tlds pre rest = some r →
      ∃ k, k ≤ rest.length ∧
        r = (joinDots (pre ++ rest.take k), joinDots (rest.drop k))
  | [], _, _, h => by simp [extractLoop] at h
  | l :: rest, pre, r, h => by
    simp only [extractLoop] at h
    by_cases he : ('!' :: joinDots (l :: rest)) ∈ tlds
    · rw [if_pos he] at h
      refine ⟨1, by simp, ?_⟩
      simp only [List.take_succ_cons, List.take_zero, List.drop_succ_cons,
        List.drop_zero] at h ⊢
      exact (Option.some_inj.mp h).symm
    · rw [if_neg he] at h
      by_cases hm : ('*' :: '.' :: joinDots rest) ∈ tlds ∨
          joinDots (l :: rest) ∈ tlds
      · rw [if_pos hm] at h
        refine ⟨0, by simp, ?_⟩
        simp only [List.take_zero, List.append_nil, List.drop_zero]
        exact (Option.some_inj.mp h).symm
      · rw [if_neg hm] at h
        obtain ⟨k, hk, hr⟩ := extractLoop_shape tlds rest (pre ++ [l]) r h
        refine ⟨k + 1, by simpa using Nat.succ_le_succ hk, ?_⟩
        rw [hr]
        simp [List.take_succ_cons, List.drop_succ_cons, List.append_assoc]

theorem extractLoop_first_exception (tlds : List Str) :
    ∀ (rest pre : List Str) (i : Nat), i < rest.length →
      (∀ k, k < i → ¬ matchesAt tlds rest k) →
      ('!' :: joinDots (rest.drop i)) ∈ tlds →
      extractLoop tlds pre rest =
        some (joinDots (pre ++ rest.take (i + 1)), joinDots (rest.drop (i + 1)))
  | [], _, i, hi, _, _ => absurd hi (by simp)
  | l :: rest, pre, 0, _, _, he => by
    simp only [List.drop_zero] at he
    simp only [extractLoop, if_pos he, List.take_succ_cons, List.take_zero,
      List.drop_succ_cons, List.drop_zero]
  | l :: rest, pre, i + 1, hi, h0, he => by
    have h00 := h0 0 (Nat.succ_pos i)
    simp only [matchesAt, List.drop_zero, List.drop_succ_cons] at h00
    push_neg at h00
    obtain ⟨he0, hw0, hp0⟩ := h00
    simp only [extractLoop]
    rw [if_neg he0, if_neg (by tauto)]
    have ih := extractLoop_first_exception tlds rest (pre ++ [l]) i
      (by simpa using Nat.lt_of_succ_lt_succ hi)
      (fun k hk => by
        have hs := h0 (k + 1) (Nat.succ_lt_succ hk)
        simpa only [matchesAt, List.drop_succ_cons] using hs)
      (by simpa only [List.drop_succ_cons] using he)
    rw [ih]
    simp [List.take_succ_cons, List.drop_succ_cons, List.append_assoc]

theorem extractLoop_first_plain_or_wildcard (tlds : List Str) :
    ∀ (rest pre : List Str) (i : Nat), i < rest.length →
      (∀ k, k < i → ¬ matchesAt tlds rest k) →
      ('!' :: joinDots (rest.drop i)) ∉ tlds →
      (('*' :: '.' :: joinDots (rest.drop (i + 1))) ∈ tlds ∨
        joinDots (rest.drop i) ∈ tlds) →
      extractLoop tlds pre rest =
        some (joinDots (pre ++ rest.take i), joinDots (rest.drop i))
  | [], _, i, hi, _, _, _ => absurd hi (by simp)
  | l :: rest, pre, 0, _, _, hne, hm => by
    simp only [List.drop_zero, List.drop_succ_cons] at hne hm
    simp only [extractLoop]
    rw [if_neg hne, if_pos hm]
    simp only [List.take_zero, List.append_nil, List.drop_zero]
  | l :: rest, pre, i + 1, hi, h0, hne, hm => by
    have h00 := h0 0 (Nat.succ_pos i)
    simp only [matchesAt, List.drop_zero, List.drop_succ_cons] at h00
    push_neg at h00
    obtain ⟨he0, hw0, hp0⟩ := h00
    simp only [extractLoop]
    rw [if_neg he0, if_neg (by tauto)]
    have ih := extractLoop_first_plain_or_wildcard tlds rest (pre ++ [l]) i
      (by simpa using Nat.lt_of_succ_lt_succ hi)
      (fun k hk => by
        have hs := h0 (k + 1) (Nat.succ_lt_succ hk)
        simpa only [matchesAt, List.drop_succ_cons] using hs)
      (by simpa only [List.drop_succ_cons] using hne)
      (by simpa only [List.drop_succ_cons] using hm)
    rw [ih]
    simp [List.take_succ_cons, List.drop_succ_cons, List.append_assoc]

/-- Whatever happens, the matcher's result is a dot-join of a prefix of
the labels paired with the dot-join of the matching tail. -/
theorem extract_shape (tlds : List Str) (netloc : Str) :
    ∃ k, k ≤ (splitDots netloc).length ∧
      PublicSuffixListTLDExtractor.extract ⟨tlds⟩ netloc =
        (joinDots ((splitDots netloc).take k),
          joinDots ((splitDots netloc).drop k)) := by
  cases h : extractLoop tlds [] (splitDots netloc) with
  | none =>
    refine ⟨(splitDots netloc).length, Nat.le_refl _, ?_⟩
    simp only [PublicSuffixListTLDExtractor.extract, h]
    rw [List.take_length, List.drop_length, join_splitDots]
    rfl
  | some r =>
    obtain ⟨k, hk, hr⟩ := extractLoop_shape tlds (splitDots netloc) [] r h
    refine ⟨k, hk, ?_⟩
    simp only [PublicSuffixListTLDExtractor.extract, h]
    simpa using hr

/-! ## Rejoining an `rpartition`ed split -/

theorem rejoin_rpartition (ts : List Str) (tld : Str) (hts : ts ≠ [])
    (hne : ∀ l ∈ ts, l ≠ []) :
    joinDots (keepNonEmpty [joinDots ts.dropLast, ts.getLastD [], tld]) =
      if tld = [] then joinDots ts else joinDots ts ++ '.' :: tld := by
  rcases List.eq_nil_or_concat ts with h | ⟨us, x, h⟩
  · exact absurd h hts
  · rw [List.concat_eq_append] at h
    subst h
    have hx : x ≠ [] := hne x (by simp)
    rw [List.dropLast_concat, getLastD_concat]
    by_cases hus : us = []
    · subst hus
      by_cases htld : tld = []
      · simp [keepNonEmpty, joinDots, hx, htld]
      · simp [keepNonEmpty, joinDots, hx, htld]
    · have hjus : joinDots us ≠ [] :=
        joinDots_ne_nil us hus (fun l hl => hne l (List.mem_append_left [x] hl))
      rw [joinDots_append us [x] hus (by simp)]
      by_cases htld : tld = []
      · simp [keepNonEmpty, joinDots, hx, htld, hjus]
      · simp [keepNonEmpty, joinDots, hx, htld, hjus, List.append_assoc]

/-- `rpartition` of a dotless string: empty head, the string itself as
tail. -/
theorem rpartitionDot_of_no_dot {s : Str} (h : '.' ∉ s) :
    rpartitionDot s = ([], s) := by
  simp [rpartitionDot, splitDots_of_no_dot h, joinDots]

/-- C1 (amended): for every suffix set and every host all of whose
dot-separated labels are non-empty, rejoining the non-empty parts of the
extracted `(subdomain, domain, suffix)` triple with `.` separators
reproduces the host exactly.  (The unrestricted claim fails on hosts with
empty labels, where a dropped empty field loses a dot of the input.) -/
theorem extractTriple_rejoin (tlds : List Str) (host : Str)
    (h : ∀ l ∈ splitDots host, l ≠ []) :
    rejoinTriple (extractTriple tlds host) = host := by
  obtain ⟨k, hk, hr⟩ := extract_shape tlds host
  have hnd : ∀ l ∈ splitDots host, '.' ∉ l := splitDots_no_dot host
  have hsne : splitDots host ≠ [] := splitDots_ne_nil host
  rcases Nat.eq_zero_or_pos k with h0 | hpos
  · subst h0
    have hJ : joinDots (splitDots host) ≠ [] := joinDots_ne_nil _ hsne h
    have hhost : host ≠ [] := fun e => hJ (by rw [join_splitDots]; exact e)
    have hrp : rpartitionDot (joinDots (List.take 0 (splitDots host))) =
        ([], []) := rfl
    simp only [extractTriple, hr, List.drop_zero, hrp]
    simp [rejoinTriple, keepNonEmpty, joinDots, join_splitDots, hhost, hJ]
  · have hts : (splitDots host).take k ≠ [] := by
      rw [Ne, List.take_eq_nil_iff]
      push_neg
      exact ⟨Nat.pos_iff_ne_zero.mp hpos, hsne⟩
    have htsne : ∀ l ∈ (splitDots host).take k, l ≠ [] :=
      fun l hl => h l (List.take_subset k (splitDots host) hl)
    have htsnd : ∀ l ∈ (splitDots host).take k, '.' ∉ l :=
      fun l hl => hnd l (List.take_subset k (splitDots host) hl)
    have hsplit : splitDots (joinDots ((splitDots host).take k)) =
        (splitDots host).take k := splitDots_joinDots _ hts htsnd
    have hrj := rejoin_rpartition ((splitDots host).take k)
      (joinDots ((splitDots host).drop k)) hts htsne
    simp only [extractTriple, hr, rejoinTriple, rpartitionDot, hsplit]
    rw [hrj]
    rcases Nat.lt_or_ge k (splitDots host).length with hlt | hge
    · have hdne : (splitDots host).drop k ≠ [] := by
        rw [Ne, List.drop_eq_nil_iff]
        omega
      have hJd : joinDots ((splitDots host).drop k) ≠ [] :=
        joinDots_ne_nil _ hdne (fun l hl => h l (List.drop_subset k (splitDots host) hl))
      rw [if_neg hJd, ← joinDots_append _ _ hts hdne, List.take_append_drop]
      exact join_splitDots host
    · have hlen : k = (splitDots host).length := Nat.le_antisymm hk hge
      subst hlen
      rw [List.drop_length]
      simp only [joinDots, if_pos]
      rw [List.take_length, join_splitDots]

/-! ## The claims -/

/-- C1 (witness): the round trip at the module docstring's own example. -/
theorem extractTriple_rejoin_witness :
    (∀ l ∈ splitDots (str "forums.news.cnn.com"), l ≠ []) ∧
    rejoinTriple (extractTriple [str "com"] (str "forums.news.cnn.com")) =
      str "forums.news.cnn.com" :=
  ⟨by decide,
    extractTriple_rejoin [str "com"] (str "forums.news.cnn.com") (by decide)⟩

/-- C1 (counterexample): for the host `"."` (two empty labels) and the
empty suffix set, the extracted triple is `("", "", "")`, so rejoining
the non-empty parts yields `""`, not the original host. -/
theorem rejoin_fails_on_empty_labels :
    rejoinTriple (extractTriple [] (str ".")) ≠ str "." := by decide

/-- C2: invoking the extractor does NOT return the three-field result:
`_extract` stores the parts in instance attributes and has no `return`
statement, so `__call__` evaluates to `None` — here at the host of the
method's own doctest, which promises an `ExtractResult`. -/
theorem call_returns_none :
    ((TLDExtract.init true []).call ⟨CacheRead.found [str "com"], [], []⟩
      (str "forums.news.cnn.com")).1 = none := rfl

/-- C3: what the matcher's algorithm does at the failing input — in the
string-level model, extracting `"localhost"` under a set with no matching
rule degrades gracefully to the whole input as the registered-domain part
with an empty suffix.  (The shipped code never reaches this result: its
first statement `bytes(netloc)` raises `TypeError` under Python 3 for
every `str` argument.) -/
theorem extract_localhost_graceful :
    PublicSuffixListTLDExtractor.extract ⟨[str "com"]⟩ (str "localhost") =
      (str "localhost", []) := by decide

/-- C4: split indices are tried in increasing order — candidate suffixes
from the longest (whole host) down to the last label — so if no rule
fires before index `i`, no exception rule fires at `i`, and a plain rule
matches the candidate at `i`, the suffix is that longest matching
candidate. -/
theorem extract_longest_plain_match (tlds : List Str) (netloc : Str) (i : Nat)
    (hi : i < (splitDots netloc).length)
    (h0 : ∀ k, k < i → ¬ matchesAt tlds (splitDots netloc) k)
    (hne : ('!' :: joinDots ((splitDots netloc).drop i)) ∉ tlds)
    (hp : joinDots ((splitDots netloc).drop i) ∈ tlds) :
    PublicSuffixListTLDExtractor.extract ⟨tlds⟩ netloc =
      (joinDots ((splitDots netloc).take i),
        joinDots ((splitDots netloc).drop i)) := by
  have hl := extractLoop_first_plain_or_wildcard tlds (splitDots netloc) [] i
    hi h0 hne (Or.inr hp)
  simp only [PublicSuffixListTLDExtractor.extract, hl, List.nil_append]

/-- C4 (witness): with both `uk` and `co.uk` in the set, the longer rule
`co.uk` determines the suffix of `forums.bbc.co.uk`. -/
theorem extract_longest_plain_match_witness :
    PublicSuffixListTLDExtractor.extract ⟨[str "uk", str "co.uk"]⟩
      (str "forums.bbc.co.uk") = (str "forums.bbc", str "co.uk") :=
  (extract_longest_plain_match [str "uk", str "co.uk"]
    (str "forums.bbc.co.uk") 2 (by decide) (by decide) (by decide)
    (by decide)).trans (by decide)

/-- C5: at a split index the exception rule is tested before the wildcard
and plain rules, so if no rule fires before index `i` and the exception
key matches at `i`, the boundary lands one label to the right of the
matched string — no matter which other rules also match at `i`. -/
theorem extract_exception_overrides (tlds : List Str) (netloc : Str) (i : Nat)
    (hi : i < (splitDots netloc).length)
    (h0 : ∀ k, k < i → ¬ matchesAt tlds (splitDots netloc) k)
    (he : ('!' :: joinDots ((splitDots netloc).drop i)) ∈ tlds) :
    PublicSuffixListTLDExtractor.extract ⟨tlds⟩ netloc =
      (joinDots ((splitDots netloc).take (i + 1)),
        joinDots ((splitDots netloc).drop (i + 1))) := by
  have hl := extractLoop_first_exception tlds (splitDots netloc) [] i hi h0 he
  simp only [PublicSuffixListTLDExtractor.extract, hl, List.nil_append]

/-- C5 (witness): with rules `*.ck` and `!www.ck`, `www.ck` splits into
registered domain `www` and suffix `ck`; the triple has empty subdomain,
domain `www`, suffix `ck`. -/
theorem extract_exception_overrides_witness :
    PublicSuffixListTLDExtractor.extract ⟨[str "*.ck", str "!www.ck"]⟩
      (str "www.ck") = (str "www", str "ck") ∧
    extractTriple [str "*.ck", str "!www.ck"] (str "www.ck") =
      ([], str "www", str "ck") :=
  ⟨(extract_exception_overrides [str "*.ck", str "!www.ck"] (str "www.ck") 0
      (by decide) (by decide) (by decide)).trans (by decide), by decide⟩

/-- C6: a wildcard rule consumes exactly one label: if no rule fires
before index `i`, no exception rule fires at `i`, and the wildcard key
`"*." ++ labels after i` is in the set, the suffix is the candidate at
`i` itself — the single label at position `i` (matched by `*`) plus the
tail the rule names, never more or fewer. -/
theorem extract_wildcard_one_label (tlds : List Str) (netloc : Str) (i : Nat)
    (hi : i < (splitDots netloc).length)
    (h0 : ∀ k, k < i → ¬ matchesAt tlds (splitDots netloc) k)
    (hne : ('!' :: joinDots ((splitDots netloc).drop i)) ∉ tlds)
    (hw : ('*' :: '.' :: joinDots ((splitDots netloc).drop (i + 1))) ∈ tlds) :
    PublicSuffixListTLDExtractor.extract ⟨tlds⟩ netloc =
      (joinDots ((splitDots netloc).take i),
        joinDots ((splitDots netloc).drop i)) := by
  have hl := extractLoop_first_plain_or_wildcard tlds (splitDots netloc) [] i
    hi h0 hne (Or.inl hw)
  simp only [PublicSuffixListTLDExtractor.extract, hl, List.nil_append]

/-- C6 (witness): with rule `*.ck` alone, `foo.bar.ck` gets suffix
`bar.ck` (wildcard absorbs exactly the one label `bar`) and `foo` becomes
the domain. -/
theorem extract_wildcard_one_label_witness :
    PublicSuffixListTLDExtractor.extract ⟨[str "*.ck"]⟩ (str "foo.bar.ck") =
      (str "foo", str "bar.ck") ∧
    extractTriple [str "*.ck"] (str "foo.bar.ck") =
      ([], str "foo", str "bar.ck") :=
  ⟨(extract_wildcard_one_label [str "*.ck"] (str "foo.bar.ck") 1
      (by decide) (by decide) (by decide) (by decide)).trans (by decide),
    by decide⟩

/-- C7 (amended): when no rule fires at any split index, the matcher
returns the whole host as the registered-domain part with an empty
suffix; the pipeline then splits that part at its LAST dot, so only for a
dotless host (such as `localhost`) is the final triple
(subdomain `""`, domain = whole host, suffix `""`). -/
theorem extract_no_match_fallback (tlds : List Str) (netloc : Str)
    (h : ∀ i, i < (splitDots netloc).length →
      ¬ matchesAt tlds (splitDots netloc) i) :
    PublicSuffixListTLDExtractor.extract ⟨tlds⟩ netloc = (netloc, []) ∧
    ('.' ∉ netloc → extractTriple tlds netloc = ([], netloc, [])) := by
  have hnone := extractLoop_eq_none tlds (splitDots netloc) [] h
  constructor
  · simp only [PublicSuffixListTLDExtractor.extract, hnone]
  · intro hd
    simp only [extractTriple, PublicSuffixListTLDExtractor.extract, hnone,
      rpartitionDot_of_no_dot hd]

/-- C7 (witness): `localhost` with the empty suffix set. -/
theorem extract_no_match_fallback_witness :
    PublicSuffixListTLDExtractor.extract ⟨([] : List Str)⟩ (str "localhost") =
      (str "localhost", []) ∧
    extractTriple [] (str "localhost") = ([], str "localhost", []) :=
  ⟨(extract_no_match_fallback [] (str "localhost") (by decide)).1,
    (extract_no_match_fallback [] (str "localhost") (by decide)).2 (by decide)⟩

/-- C7 (counterexample): for the dotted host `a.b` with the empty suffix
set, no rule matches any tail, yet the final triple is `("a", "b", "")`
— the whole host does NOT become the domain and the subdomain is only
empty because `a.b` happens to have one dot; here the claim's stated
output `("", "a.b", "")` is wrong. -/
theorem no_match_dotted_counterexample :
    (∀ i, i < (splitDots (str "a.b")).length →
      ¬ matchesAt [] (splitDots (str "a.b")) i) ∧
    extractTriple [] (str "a.b") ≠ ([], str "a.b", []) := by decide

/-- Every branch of `_get_tld_extractor` memoizes what it returns. -/
theorem get_tld_extractor_state_memo (s : TLDExtract) (env : Env) :
    ((s._get_tld_extractor env).2)._extractor =
      some (s._get_tld_extractor env).1 := by
  cases hs : s._extractor with
  | some e => simp [TLDExtract._get_tld_extractor, hs]
  | none =>
    cases hc : env.cache with
    | found ts => simp [TLDExtract._get_tld_extractor, hs, hc]
    | notFound =>
      simp only [TLDExtract._get_tld_extractor, hs, hc]
      split
      · split <;> rfl
      · rfl
    | ioError =>
      simp only [TLDExtract._get_tld_extractor, hs, hc]
      split
      · split <;> rfl
      · rfl
    | corrupt =>
      simp only [TLDExtract._get_tld_extractor, hs, hc]
      split
      · split <;> rfl
      · rfl

/-- With the extractor already resolved, `_get_tld_extractor` returns it
at once and leaves the state untouched. -/
theorem get_tld_extractor_of_some (s : TLDExtract) (env : Env)
    (e : PublicSuffixListTLDExtractor) (h : s._extractor = some e) :
    s._get_tld_extractor env = (e, s) := by
  simp [TLDExtract._get_tld_extractor, h]

/-- C8: `_get_tld_extractor` is memoized — after any first call, a second
call returns the identical extractor and state whatever the second call's
environment, so the cache/fetch/snapshot chain cannot run again. -/
theorem get_tld_extractor_memoized (s : TLDExtract) (env env' : Env) :
    ((s._get_tld_extractor env).2)._get_tld_extractor env' =
      s._get_tld_extractor env :=
  (get_tld_extractor_of_some _ env' _ (get_tld_extractor_state_memo s env)).trans
    Prod.mk.eta

/-- C9: on first resolution with a readable cache, the cached rule set is
used verbatim and memoized; the fetched rules and the snapshot (left
universally quantified) play no part, and nothing is merged into the
cached content. -/
theorem cache_hit_used_verbatim (s : TLDExtract)
    (ts fetched snapshot : List Str)
    (h1 : s._extractor = none) (_h2 : s.fetch = false) :
    s._get_tld_extractor ⟨CacheRead.found ts, fetched, snapshot⟩ =
      (⟨ts⟩, { s with _extractor := some ⟨ts⟩ }) := by
  simp [TLDExtract._get_tld_extractor, h1]

/-- C9 (witness): a fetch-disabled instance with distinct cache, fetch
and snapshot contents resolves to exactly the cached content. -/
theorem cache_hit_used_verbatim_witness :
    (TLDExtract.init false (str "cache"))._get_tld_extractor
      ⟨CacheRead.found [str "com"], [str "net"], [str "org"]⟩ =
      (⟨[str "com"]⟩,
        { TLDExtract.init false (str "cache") with
            _extractor := some ⟨[str "com"]⟩ }) :=
  cache_hit_used_verbatim (TLDExtract.init false (str "cache"))
    [str "com"] [str "net"] [str "org"] rfl rfl

/-- C10: a freshly constructed `TLDExtract` has empty `subdomain`,
`domain` and `tld` attributes, and every `_extract` call overwrites the
three attributes of an arbitrary prior state with the three parts of the
split of the host it was given, under the suffix set that call
resolved. -/
theorem extract_mutates_attributes (f : Bool) (cf : Str) (s : TLDExtract)
    (env : Env) (host : Str) :
    (TLDExtract.init f cf).subdomain = [] ∧
    (TLDExtract.init f cf).domain = [] ∧
    (TLDExtract.init f cf).tld = [] ∧
    (s._extract env host).subdomain =
      (extractTriple ((s._get_tld_extractor env).1).tlds host).1 ∧
    (s._extract env host).domain =
      (extractTriple ((s._get_tld_extractor env).1).tlds host).2.1 ∧
    (s._extract env host).tld =
      (extractTriple ((s._get_tld_extractor env).1).tlds host).2.2 :=
  ⟨rfl, rfl, rfl, rfl, rfl, rfl⟩

end Faup
